import Mathlib

/-!
Shallow embedding of `src/align/mod.rs` from the seqalign repository,
with theorems settling the claims about `Step` (the DP-grid cell type),
`PWAlignment` and its `distance()` method, and the `Debug` rendering.

Modelling conventions:
* `OrderedFloat<f32>` score values are modelled as exact rationals `ℚ`:
  every finite `f32` is a rational, `f32` division is exactly rounded,
  and the total order of `OrderedFloat` on finite values coincides with
  the rational order.  The `f32` counters of `distance` accumulate the
  exact even integers `2, 4, 6, …`, which `f32` represents exactly.
* Rust `String`s hold ASCII residue sequences; byte-wise iteration over
  them is modelled as `List Char`.
* Fallible operations (`b[i]` indexing, which panics out of bounds, and
  the `0.0/0.0` division, which produces `NaN` in `f32` but has no
  counterpart in `ℚ`) are made explicit in the result type.
-/

namespace SeqAlign

/-- `Step` (mod.rs lines 16–22): one cell of the DP grid — a score
value, its coordinates `(i, j)` and an optional backpointer `next`. -/
structure Step where
  val : ℚ
  i : ℕ
  j : ℕ
  next : Option (ℕ × ℕ)
deriving Repr, DecidableEq

/-- `Step::from` (mod.rs lines 25–32): build a cell with no backpointer. -/
def Step.make (i j : ℕ) (val : ℚ) : Step :=
  { val := val, i := i, j := j, next := none }

/-- `impl PartialEq for Step` (mod.rs lines 52–56):
`self.i == other.i && self.j == other.j && self.val == other.val`. -/
def Step.eq (s t : Step) : Bool :=
  s.i == t.i && s.j == t.j && s.val == t.val

/-- `impl Ord for Step` (mod.rs lines 58–62): `self.val.cmp(&other.val)`. -/
def Step.cmp (s t : Step) : Ordering :=
  compare s.val t.val

/-- `impl PartialOrd for Step` (mod.rs lines 64–68):
`self.val.partial_cmp(&other.val)`; on `OrderedFloat` this is always
`Some` of the total comparison. -/
def Step.partialCmp (s t : Step) : Option Ordering :=
  some (compare s.val t.val)

/-- C6: the comparison on `Step` is total and determined by the score
alone — `partial_cmp` always returns `Some`, `cmp` compares exactly the
`val` fields, and the result is unchanged under arbitrary coordinates
and backpointers. -/
theorem step_cmp_by_val (s t : Step) :
    Step.partialCmp s t = some (Step.cmp s t) ∧
    Step.cmp s t = compare s.val t.val ∧
    (∀ i j n i' j' n',
      Step.cmp { val := s.val, i := i, j := j, next := n }
        { val := t.val, i := i', j := j', next := n' } = Step.cmp s t) :=
  ⟨rfl, rfl, fun _ _ _ _ _ _ => rfl⟩

/-- C7: two `Step`s are equal under `eq` iff their coordinates and
values agree, and the backpointer field plays no role in equality. -/
theorem step_eq_iff (s t : Step) :
    (Step.eq s t = true ↔ s.i = t.i ∧ s.j = t.j ∧ s.val = t.val) ∧
    (∀ n n', Step.eq { s with next := n } { t with next := n' } = Step.eq s t) := by
  constructor
  · simp [Step.eq, and_assoc]
  · intro n n'
    rfl

/-- C9: `Step`'s order is strictly coarser than its equality — two
cells with the same score but different coordinates compare `Equal`
under `cmp` yet are not `eq`-equal. -/
theorem step_order_coarser_than_eq :
    ∃ s t : Step, s.val = t.val ∧ ¬(s.i = t.i ∧ s.j = t.j) ∧
      Step.cmp s t = Ordering.eq ∧ Step.eq s t = false := by
  refine ⟨Step.make 0 0 5, Step.make 1 1 5, rfl, by decide, ?_, by decide⟩
  decide

/-- `PWAlignment` (mod.rs lines 70–88): the DP grid, the two aligned
(gap-padded) sequences `a`, `b`, the two original sequences and the
final score. -/
structure PWAlignment where
  grid : List (List Step)
  a : List Char
  b : List Char
  a_orig : List Char
  b_orig : List Char
  score : ℚ
deriving Repr

/-- Result of `PWAlignment::distance` (mod.rs lines 98–116) made
explicit: `panic` models the out-of-bounds access `b[i]` when `b` is
shorter than `a`; `nan` models the `f32` division `0.0/0.0` performed
when `residues == 0` (the code has no guard); `val q` is the finite
quotient otherwise. -/
inductive DistResult where
  | panic : DistResult
  | nan : DistResult
  | val : ℚ → DistResult
deriving Repr, DecidableEq

/-- The counting loop of `distance` (mod.rs lines 101–113): walk the
positions of `a`, read `b[i]` (out of bounds when `b` is exhausted
first), skip columns where both symbols are `'-'`, add 2 to `residues`
otherwise and additionally 2 to `identities` on equal symbols. -/
def distCounts : List Char → List Char → Option (ℕ × ℕ)
  | [], _ => some (0, 0)
  | _ :: _, [] => none
  | c1 :: ta, c2 :: tb =>
    (distCounts ta tb).map fun p =>
      if c1 = '-' ∧ c2 = '-' then p
      else (p.1 + 2, if c1 = c2 then p.2 + 2 else p.2)

/-- `PWAlignment::distance` (mod.rs lines 98–116): runs the counting
loop, then computes `(residues - identities) / residues`
unconditionally — which is `NaN` (`0.0/0.0`) when `residues == 0`. -/
def PWAlignment.distance (al : PWAlignment) : DistResult :=
  match distCounts al.a al.b with
  | none => DistResult.panic
  | some (r, idents) =>
    if r = 0 then DistResult.nan
    else DistResult.val (((r : ℚ) - (idents : ℚ)) / (r : ℚ))

/-- The residue count as the spec words it: every non-doubly-gapped
position of the aligned pair contributes 2. -/
def residuesSpec (a b : List Char) : ℕ :=
  2 * ((a.zip b).filter fun p => ¬(p.1 = '-' ∧ p.2 = '-')).length

/-- The identity count as the spec words it: every non-doubly-gapped
position whose two symbols are equal contributes 2. -/
def identitiesSpec (a b : List Char) : ℕ :=
  2 * ((a.zip b).filter fun p => ¬(p.1 = '-' ∧ p.2 = '-') ∧ p.1 = p.2).length

lemma residuesSpec_cons (c1 c2 : Char) (ta tb : List Char) :
    residuesSpec (c1 :: ta) (c2 :: tb) =
      if c1 = '-' ∧ c2 = '-' then residuesSpec ta tb
      else residuesSpec ta tb + 2 := by
  unfold residuesSpec
  rw [List.zip_cons_cons]
  by_cases hg : c1 = '-' ∧ c2 = '-'
  · rw [if_pos hg, List.filter_cons_of_neg]
    simp [hg]
  · rw [if_neg hg, List.filter_cons_of_pos]
    · rw [List.length_cons]
      omega
    · simp [hg]

lemma identitiesSpec_cons (c1 c2 : Char) (ta tb : List Char) :
    identitiesSpec (c1 :: ta) (c2 :: tb) =
      if c1 = '-' ∧ c2 = '-' then identitiesSpec ta tb
      else if c1 = c2 then identitiesSpec ta tb + 2 else identitiesSpec ta tb := by
  unfold identitiesSpec
  rw [List.zip_cons_cons]
  by_cases hg : c1 = '-' ∧ c2 = '-'
  · rw [if_pos hg, List.filter_cons_of_neg]
    simp [hg]
  · rw [if_neg hg]
    by_cases he : c1 = c2
    · have hc2 : ¬c2 = '-' := fun h2 => hg ⟨he.trans h2, h2⟩
      rw [if_pos he, List.filter_cons_of_pos]
      · rw [List.length_cons]
        omega
      · simp [he, hc2]
    · rw [if_neg he, List.filter_cons_of_neg]
      simp [hg, he]

lemma distCounts_eq_spec :
    ∀ a b : List Char, a.length ≤ b.length →
      distCounts a b = some (residuesSpec a b, identitiesSpec a b) := by
  intro a
  induction a with
  | nil =>
    intro b _
    simp [distCounts, residuesSpec, identitiesSpec]
  | cons c1 ta ih =>
    intro b h
    cases b with
    | nil => simp at h
    | cons c2 tb =>
      have h' : ta.length ≤ tb.length := by simpa using h
      rw [distCounts, ih tb h', residuesSpec_cons, identitiesSpec_cons]
      by_cases hg : c1 = '-' ∧ c2 = '-'
      · simp [hg]
      · by_cases he : c1 = c2
        · have hc2 : ¬c2 = '-' := fun h2 => hg ⟨he.trans h2, h2⟩
          simp [hg, he, hc2]
        · simp [hg, he]

lemma distCounts_none_iff :
    ∀ a b : List Char, distCounts a b = none ↔ b.length < a.length := by
  intro a
  induction a with
  | nil =>
    intro b
    simp [distCounts]
  | cons c1 ta ih =>
    intro b
    cases b with
    | nil => simp [distCounts]
    | cons c2 tb =>
      rw [distCounts]
      simp [Option.map_eq_none, ih tb, Nat.succ_lt_succ_iff]

lemma distCounts_idents_le :
    ∀ a b : List Char, ∀ r n : ℕ, distCounts a b = some (r, n) → n ≤ r := by
  intro a
  induction a with
  | nil =>
    intro b r n h
    simp [distCounts, Prod.ext_iff] at h
    omega
  | cons c1 ta ih =>
    intro b r n h
    cases b with
    | nil => simp [distCounts] at h
    | cons c2 tb =>
      rw [distCounts] at h
      cases hc : distCounts ta tb with
      | none => simp [hc] at h
      | some p =>
        have hle := ih tb p.1 p.2 (by rw [hc])
        rw [hc] at h
        by_cases hg : c1 = '-' ∧ c2 = '-'
        · simp [hg, Prod.ext_iff] at h
          omega
        · by_cases he : c1 = c2
          · have hc2 : ¬c2 = '-' := fun h2 => hg ⟨he.trans h2, h2⟩
            simp [hg, he, hc2, Prod.ext_iff] at h
            omega
          · simp [hg, he, Prod.ext_iff] at h
            omega

lemma residuesSpec_ne_zero (a b : List Char)
    (h : ∃ p ∈ a.zip b, ¬(p.1 = '-' ∧ p.2 = '-')) :
    residuesSpec a b ≠ 0 := by
  obtain ⟨p, hp, hnp⟩ := h
  have : p ∈ (a.zip b).filter fun q => ¬(q.1 = '-' ∧ q.2 = '-') := by
    rw [List.mem_filter]
    exact ⟨hp, by simp [hnp]⟩
  intro hzero
  rw [residuesSpec] at hzero
  rcases Nat.mul_eq_zero.mp hzero with h2 | hlen
  · omega
  · rw [List.length_eq_zero] at hlen
    rw [hlen] at this
    simp at this

lemma distCounts_swap :
    ∀ a b : List Char, a.length = b.length → distCounts b a = distCounts a b := by
  intro a
  induction a with
  | nil =>
    intro b h
    cases b with
    | nil => rfl
    | cons c tb => simp at h
  | cons c1 ta ih =>
    intro b h
    cases b with
    | nil => simp at h
    | cons c2 tb =>
      have h' : ta.length = tb.length := by simpa using h
      show (distCounts tb ta).map _ = (distCounts ta tb).map _
      rw [ih tb h']
      cases hc : distCounts ta tb with
      | none => rfl
      | some p =>
        by_cases hg : c1 = '-' ∧ c2 = '-'
        · have hg' : c2 = '-' ∧ c1 = '-' := ⟨hg.2, hg.1⟩
          simp [hg, hg']
        · have hg' : ¬(c2 = '-' ∧ c1 = '-') := fun h2 => hg ⟨h2.2, h2.1⟩
          by_cases he : c1 = c2
          · simp [hg, hg', he]
          · have he' : ¬c2 = c1 := fun h2 => he h2.symm
            simp [hg, hg', he, he']

/-- Shared computation lemma: under the claims' preconditions the code
returns exactly the spec's quotient. -/
lemma distance_eq_spec (al : PWAlignment)
    (hlen : al.a.length = al.b.length)
    (hne : ∃ p ∈ al.a.zip al.b, ¬(p.1 = '-' ∧ p.2 = '-')) :
    al.distance = DistResult.val
      (((residuesSpec al.a al.b : ℚ) - (identitiesSpec al.a al.b : ℚ)) /
        (residuesSpec al.a al.b : ℚ)) := by
  have hc := distCounts_eq_spec al.a al.b (le_of_eq hlen)
  have hr := residuesSpec_ne_zero al.a al.b hne
  rw [PWAlignment.distance, hc]
  simp [hr]

/-- The aligned pair of the repo test `test_alignment_distance`:
`"ACCGT"` over `"AG-CT"`. -/
def alnGap : PWAlignment :=
  { grid := [], a := ['A', 'C', 'C', 'G', 'T'], b := ['A', 'G', '-', 'C', 'T'],
    a_orig := [], b_orig := [], score := 0 }

/-- `alnGap` with the two aligned strings swapped. -/
def alnGapSwapped : PWAlignment :=
  { grid := [], a := ['A', 'G', '-', 'C', 'T'], b := ['A', 'C', 'C', 'G', 'T'],
    a_orig := [], b_orig := [], score := 0 }

/-- The aligned pair of the repo test `test_alignment_distance2`:
`"ACTGT"` over `"ACAGT"`. -/
def alnNoGap : PWAlignment :=
  { grid := [], a := ['A', 'C', 'T', 'G', 'T'], b := ['A', 'C', 'A', 'G', 'T'],
    a_orig := [], b_orig := [], score := 0 }

/-- C1: on an alignment whose every column is doubly-gapped,
`residues == 0`, and `distance` performs the division anyway: the code
returns the `0.0/0.0` `NaN` value instead of reporting an explicit
`EmptyComparison` failure (no such error kind exists anywhere in the
code — `distance` returns a bare `f32`). -/
theorem distance_all_gaps_is_nan :
    (PWAlignment.mk [] ['-', '-'] ['-', '-'] [] [] 0).distance = DistResult.nan := by
  decide

/-- C2: on equal-length aligned strings with at least one
non-doubly-gapped column, `distance` returns
`(residues - identities) / residues` with the counts exactly as the
spec words them. -/
theorem distance_formula (al : PWAlignment)
    (hlen : al.a.length = al.b.length)
    (hne : ∃ p ∈ al.a.zip al.b, ¬(p.1 = '-' ∧ p.2 = '-')) :
    al.distance = DistResult.val
      (((residuesSpec al.a al.b : ℚ) - (identitiesSpec al.a al.b : ℚ)) /
        (residuesSpec al.a al.b : ℚ)) :=
  distance_eq_spec al hlen hne

theorem distance_formula_witness :
    alnNoGap.a.length = alnNoGap.b.length ∧
    (∃ p ∈ alnNoGap.a.zip alnNoGap.b, ¬(p.1 = '-' ∧ p.2 = '-')) ∧
    alnNoGap.distance = DistResult.val
      (((residuesSpec alnNoGap.a alnNoGap.b : ℚ) -
          (identitiesSpec alnNoGap.a alnNoGap.b : ℚ)) /
        (residuesSpec alnNoGap.a alnNoGap.b : ℚ)) :=
  ⟨by decide, by decide, distance_formula alnNoGap (by decide) (by decide)⟩

/-- C3: `distance` is symmetric under swapping the two aligned
strings. -/
theorem distance_symm (al al' : PWAlignment)
    (ha : al'.a = al.b) (hb : al'.b = al.a)
    (hlen : al.a.length = al.b.length)
    (_hne : ∃ p ∈ al.a.zip al.b, ¬(p.1 = '-' ∧ p.2 = '-')) :
    al'.distance = al.distance := by
  rw [PWAlignment.distance, PWAlignment.distance, ha, hb,
    distCounts_swap al.a al.b hlen]

theorem distance_symm_witness :
    alnGapSwapped.a = alnGap.b ∧ alnGapSwapped.b = alnGap.a ∧
    alnGap.a.length = alnGap.b.length ∧
    (∃ p ∈ alnGap.a.zip alnGap.b, ¬(p.1 = '-' ∧ p.2 = '-')) ∧
    alnGapSwapped.distance = alnGap.distance :=
  ⟨rfl, rfl, by decide, by decide,
    distance_symm alnGap alnGapSwapped rfl rfl (by decide) (by decide)⟩

/-- C4: on equal-length aligned strings with at least one
non-doubly-gapped column, `distance` returns a finite value in the
closed interval `[0, 1]`. -/
theorem distance_in_unit_interval (al : PWAlignment)
    (hlen : al.a.length = al.b.length)
    (hne : ∃ p ∈ al.a.zip al.b, ¬(p.1 = '-' ∧ p.2 = '-')) :
    ∃ q : ℚ, al.distance = DistResult.val q ∧ 0 ≤ q ∧ q ≤ 1 := by
  have hc := distCounts_eq_spec al.a al.b (le_of_eq hlen)
  have hr := residuesSpec_ne_zero al.a al.b hne
  have hle := distCounts_idents_le al.a al.b _ _ hc
  have hrq : (0 : ℚ) < (residuesSpec al.a al.b : ℚ) := by
    exact_mod_cast Nat.pos_of_ne_zero hr
  have hleq : (identitiesSpec al.a al.b : ℚ) ≤ (residuesSpec al.a al.b : ℚ) := by
    exact_mod_cast hle
  refine ⟨_, distance_eq_spec al hlen hne, ?_, ?_⟩
  · exact div_nonneg (by linarith) (le_of_lt hrq)
  · rw [div_le_one hrq]
    linarith

theorem distance_in_unit_interval_witness :
    alnGap.a.length = alnGap.b.length ∧
    (∃ p ∈ alnGap.a.zip alnGap.b, ¬(p.1 = '-' ∧ p.2 = '-')) ∧
    (∃ q : ℚ, alnGap.distance = DistResult.val q ∧ 0 ≤ q ∧ q ≤ 1) :=
  ⟨by decide, by decide, distance_in_unit_interval alnGap (by decide) (by decide)⟩

/-- C5: what the code actually returns on the spec's (and the repo
test's) example inputs: `3/5` (= 0.6) for `"ACCGT"`/`"AG-CT"` — not
the claimed `0.5` — because the single-gap column `('C', '-')` is
counted among the residues; and `1/5` (= 0.2) for `"ACTGT"`/`"ACAGT"`
as claimed. -/
theorem distance_examples_actual :
    alnGap.distance = DistResult.val (3 / 5) ∧
    alnNoGap.distance = DistResult.val (1 / 5) := by
  constructor
  · rw [distance_eq_spec alnGap (by decide) (by decide)]
    have h1 : residuesSpec alnGap.a alnGap.b = 10 := by decide
    have h2 : identitiesSpec alnGap.a alnGap.b = 4 := by decide
    rw [h1, h2]
    simp only [DistResult.val.injEq]
    norm_num
  · rw [distance_eq_spec alnNoGap (by decide) (by decide)]
    have h1 : residuesSpec alnNoGap.a alnNoGap.b = 10 := by decide
    have h2 : identitiesSpec alnNoGap.a alnNoGap.b = 8 := by decide
    rw [h1, h2]
    simp only [DistResult.val.injEq]
    norm_num

/-- C10: `distance` reads `b[i]` at every position `i` of `a`, so it
hits an out-of-bounds access exactly when the bottom aligned string is
shorter than the top one; otherwise it is total. -/
theorem distance_panic_iff (al : PWAlignment) :
    al.distance = DistResult.panic ↔ al.b.length < al.a.length := by
  rw [PWAlignment.distance]
  cases hc : distCounts al.a al.b with
  | none =>
    simp [(distCounts_none_iff al.a al.b).mp hc]
  | some p =>
    have hnone : distCounts al.a al.b ≠ none := by simp [hc]
    have hnlt : ¬al.b.length < al.a.length :=
      fun hlt => hnone ((distCounts_none_iff al.a al.b).mpr hlt)
    obtain ⟨r, n⟩ := p
    by_cases hr : r = 0
    · simp [hr, hnlt]
    · simp [hr, hnlt]

/-- Rust's `{: <3}` format: left-align, pad with spaces to width 3. -/
def pad3 (s : String) : String :=
  s ++ String.mk (List.replicate (3 - s.length) ' ')

/-- One header-row token: `format!(" {: <3}|", c)` (mod.rs line 140). -/
def charTok (c : Char) : String :=
  " " ++ pad3 (String.mk [c]) ++ "|"

/-- One grid-cell token: `format!(" {: <3}|", f.val)` (mod.rs line 154),
parameterized by the numeric rendering `showVal` of the score (the
`Display` of `OrderedFloat<f32>`). -/
def cellTok (showVal : ℚ → String) (st : Step) : String :=
  " " ++ pad3 (showVal st.val) ++ "|"

/-- One header-column token: `format!("{: <3}|", b_orig[i-1])`
(mod.rs line 148). -/
def bHeadTok (c : Char) : String :=
  pad3 (String.mk [c]) ++ "|"

/-- The tokens pushed by the `i == 0` header-row branch
(mod.rs lines 136–142). -/
def aHeaderToks (al : PWAlignment) : List String :=
  "   |    |" :: (al.a_orig.map charTok ++ ["\n"])

/-- The `format!("{}\n{}\n", a, b)` header (mod.rs line 131). -/
def headerTok (al : PWAlignment) : String :=
  String.mk al.a ++ "\n" ++ String.mk al.b ++ "\n"

/-- The tokens pushed by iteration `i` of the `Debug` loop
(mod.rs lines 134–156): the seq-A header tokens when `i == 0`, then the
first-column token (`b_orig.chars().nth(i-1).unwrap()` — `none` models
the panic), then one token per cell of `self.grid[i]` (`none` models
the out-of-range index), then a newline. -/
def rowToks (showVal : ℚ → String) (al : PWAlignment) (i : ℕ) :
    Option (List String) := do
  let first ← if i = 0 then some "   |"
              else (al.b_orig[i - 1]?).map bHeadTok
  let row ← al.grid[i]?
  some ((if i = 0 then aHeaderToks al else []) ++
    (first :: (row.map (cellTok showVal) ++ ["\n"])))

/-- Sequence a fallible token producer over a list of loop indices,
collecting the produced blocks in order. -/
def seqMap {α β : Type} (f : α → Option β) : List α → Option (List β)
  | [] => some []
  | x :: xs => do
    let y ← f x
    let ys ← seqMap f xs
    some (y :: ys)

/-- `impl Debug for PWAlignment` (mod.rs lines 129–160) as the vector
of pushed strings: the header line followed by the loop's tokens for
`i` in `0 ..= b_orig.len()`. -/
def debugToks (showVal : ℚ → String) (al : PWAlignment) :
    Option (List String) := do
  let blocks ← seqMap (rowToks showVal al) (List.range (al.b_orig.length + 1))
  some (headerTok al :: blocks.flatten)

/-- The final `result.join("")` (mod.rs line 158). -/
def debugFmt (showVal : ℚ → String) (al : PWAlignment) : Option String :=
  (debugToks showVal al).map (fun ts => String.join ts)

lemma rowToks_zero (showVal : ℚ → String) (al : PWAlignment) (row : List Step)
    (hrow : al.grid[0]? = some row) :
    rowToks showVal al 0 =
      some (aHeaderToks al ++ ("   |" :: (row.map (cellTok showVal) ++ ["\n"]))) := by
  simp [rowToks, hrow]

lemma rowToks_succ (showVal : ℚ → String) (al : PWAlignment) (i : ℕ)
    (c : Char) (row : List Step)
    (hb : al.b_orig[i]? = some c) (hrow : al.grid[i + 1]? = some row) :
    rowToks showVal al (i + 1) =
      some (bHeadTok c :: (row.map (cellTok showVal) ++ ["\n"])) := by
  simp [rowToks, hb, hrow]

lemma seqMap_some {α β : Type} (f : α → Option β) :
    ∀ l : List α, (∀ x ∈ l, ∃ y, f x = some y) → ∃ bs, seqMap f l = some bs := by
  intro l
  induction l with
  | nil =>
    intro _
    exact ⟨[], rfl⟩
  | cons x xs ih =>
    intro h
    obtain ⟨y, hy⟩ := h x (List.mem_cons_self x xs)
    obtain ⟨bs, hbs⟩ := ih fun z hz => h z (List.mem_cons_of_mem x hz)
    exact ⟨y :: bs, by simp [seqMap, hy, hbs]⟩

/-- The alignment of the repo test `test_alignment_debug`: originals
`"AGC"` and `"CG"`, with a fully populated `(2+1) × (3+1)` grid. -/
def alnDbg : PWAlignment :=
  { grid :=
      [[Step.make 0 0 0, Step.make 0 1 (-1), Step.make 0 2 (-2), Step.make 0 3 (-3)],
       [Step.make 1 0 (-1), Step.make 1 1 0, Step.make 1 2 0, Step.make 1 3 1],
       [Step.make 2 0 (-2), Step.make 2 1 0, Step.make 2 2 1, Step.make 2 3 1]],
    a := ['A', 'G', 'C'], b := ['C', 'G'],
    a_orig := ['A', 'G', 'C'], b_orig := ['C', 'G'], score := 0 }

/-- C8: in the `Debug` rendering of a `PWAlignment` whose grid has
`b_orig.len() + 1` rows: the rendering succeeds and, right after the
aligned-pair header and the corner token, the header row holds exactly
the characters of `a_orig` in order; each interior row `i + 1` starts
with the header-column token of `b_orig[i]`; and every row block lists
that grid row's cells rendered by their numeric score value, in
order. -/
theorem debug_render_headers (showVal : ℚ → String) (al : PWAlignment)
    (hg : al.grid.length = al.b_orig.length + 1) :
    (∃ rest, debugToks showVal al =
        some (headerTok al :: "   |    |" :: (al.a_orig.map charTok ++ rest))) ∧
    (∀ i, i < al.b_orig.length →
      ∃ c bl, al.b_orig[i]? = some c ∧
        rowToks showVal al (i + 1) = some bl ∧
        bl.head? = some (bHeadTok c)) ∧
    (∀ i row, al.grid[i]? = some row →
      ∃ pre bl, rowToks showVal al i = some bl ∧
        bl = pre ++ (row.map (cellTok showVal) ++ ["\n"])) := by
  have hlen0 : 0 < al.grid.length := by omega
  obtain ⟨row0, h0⟩ : ∃ r, al.grid[0]? = some r :=
    ⟨_, List.getElem?_eq_getElem hlen0⟩
  refine ⟨?_, ?_, ?_⟩
  · have hrest : ∀ x ∈ (List.range al.b_orig.length).map Nat.succ,
        ∃ y, rowToks showVal al x = some y := by
      intro x hx
      obtain ⟨j, hj, rfl⟩ := List.mem_map.mp hx
      rw [List.mem_range] at hj
      have hb : al.b_orig[j]? = some (al.b_orig.get ⟨j, hj⟩) :=
        List.getElem?_eq_getElem hj
      have hr : al.grid[j + 1]? = some (al.grid.get ⟨j + 1, by omega⟩) :=
        List.getElem?_eq_getElem (by omega)
      exact ⟨_, rowToks_succ showVal al j _ _ hb hr⟩
    obtain ⟨bs, hbs⟩ := seqMap_some (rowToks showVal al) _ hrest
    refine ⟨"\n" :: (("   |" :: (row0.map (cellTok showVal) ++ ["\n"])) ++ bs.flatten), ?_⟩
    simp only [debugToks, List.range_succ_eq_map, seqMap, rowToks_zero showVal al row0 h0,
      hbs, Option.bind_eq_bind, Option.some_bind, List.flatten_cons, aHeaderToks]
    simp [List.append_assoc]
  · intro i hi
    have hb : al.b_orig[i]? = some (al.b_orig.get ⟨i, hi⟩) :=
      List.getElem?_eq_getElem hi
    have hr : al.grid[i + 1]? = some (al.grid.get ⟨i + 1, by omega⟩) :=
      List.getElem?_eq_getElem (by omega)
    exact ⟨_, _, hb, rowToks_succ showVal al i _ _ hb hr, rfl⟩
  · intro i row hrowi
    cases i with
    | zero =>
      have h0' : row0 = row := by
        rw [h0] at hrowi
        exact Option.some_injective _ hrowi
      subst h0'
      refine ⟨aHeaderToks al ++ ["   |"], _, rowToks_zero showVal al row0 h0, ?_⟩
      simp [List.append_assoc]
    | succ j =>
      have hj1 : j + 1 < al.grid.length := by
        by_contra hout
        rw [List.getElem?_eq_none (by omega)] at hrowi
        exact Option.noConfusion hrowi
      have hj : j < al.b_orig.length := by omega
      have hb : al.b_orig[j]? = some (al.b_orig.get ⟨j, hj⟩) :=
        List.getElem?_eq_getElem hj
      exact ⟨[bHeadTok (al.b_orig.get ⟨j, hj⟩)], _,
        rowToks_succ showVal al j _ _ hb hrowi, rfl⟩

theorem debug_render_headers_witness :
    alnDbg.grid.length = alnDbg.b_orig.length + 1 ∧
    ((∃ rest, debugToks (fun _ => "") alnDbg =
        some (headerTok alnDbg :: "   |    |" :: (alnDbg.a_orig.map charTok ++ rest))) ∧
     (∀ i, i < alnDbg.b_orig.length →
       ∃ c bl, alnDbg.b_orig[i]? = some c ∧
         rowToks (fun _ => "") alnDbg (i + 1) = some bl ∧
         bl.head? = some (bHeadTok c)) ∧
     (∀ i row, alnDbg.grid[i]? = some row →
       ∃ pre bl, rowToks (fun _ => "") alnDbg i = some bl ∧
         bl = pre ++ (row.map (cellTok (fun _ => "")) ++ ["\n"]))) :=
  ⟨by decide, debug_render_headers (fun _ => "") alnDbg (by decide)⟩

end SeqAlign
